import Mathlib

-- Shallow embedding of the lumen-kv storage core (lumen-core/src/wal.rs and
-- lumen-core/src/engine.rs).  Bytes are naturals below 256, byte files are
-- lists of bytes, the memtable is the key-to-value mapping a BTreeMap holds.

namespace LumenKV

-- Byte-level helpers ---------------------------------------------------------

/-- Big-endian interpretation of a byte list, as byteorder's BigEndian reads do. -/
def beToNat (l : List Nat) : Nat :=
  l.foldl (fun acc b => acc * 256 + b) 0

/-- Big-endian encoding of a natural number into a fixed width in bytes, as
byteorder's BigEndian writes and u64::to_be_bytes do. -/
def natToBeBytes : Nat → Nat → List Nat
  | 0, _ => []
  | w + 1, n => natToBeBytes w (n / 256) ++ [n % 256]

/-- u64 big-endian bytes. -/
def u64be (n : Nat) : List Nat := natToBeBytes 8 n

/-- u32 big-endian bytes. -/
def u32be (n : Nat) : List Nat := natToBeBytes 4 n

-- CRC32 ----------------------------------------------------------------------

/-- Reflected generator polynomial of CRC-32 (IEEE), the checksum the
crc32fast crate computes. -/
def crcPoly : Nat := 0xEDB88320

/-- One bit-round of the reflected CRC-32 state update. -/
def crcRound (c : Nat) : Nat :=
  if c % 2 = 1 then (c / 2) ^^^ crcPoly else c / 2

/-- Iterated bit-rounds. -/
def crcRounds : Nat → Nat → Nat
  | 0, c => c
  | n + 1, c => crcRounds n (crcRound c)

/-- Fold one byte into the CRC-32 state. -/
def crcStep (c b : Nat) : Nat := crcRounds 8 (c ^^^ b)

/-- CRC-32 (IEEE: reflected, initial state and final xor 0xFFFFFFFF) of a byte
list; the checksum computed by crc32fast's Hasher in wal.rs. -/
def crc32 (bytes : List Nat) : Nat :=
  (bytes.foldl crcStep 0xFFFFFFFF) ^^^ 0xFFFFFFFF

-- UTF-8 validity -------------------------------------------------------------

/-- Is b a UTF-8 continuation byte (0x80 to 0xBF)? -/
def utf8Cont (b : Nat) : Bool := 0x80 ≤ b && b ≤ 0xBF

/-- UTF-8 validity of a byte list: exactly the condition under which Rust's
String::from_utf8 (used by WriteAheadLog::recover on the key bytes) succeeds. -/
def validUtf8 : List Nat → Bool
  | [] => true
  | b :: rest =>
    if b ≤ 0x7F then validUtf8 rest
    else if 0xC2 ≤ b && b ≤ 0xDF then
      match rest with
      | c1 :: r => utf8Cont c1 && validUtf8 r
      | _ => false
    else if b == 0xE0 then
      match rest with
      | c1 :: c2 :: r => (0xA0 ≤ c1 && c1 ≤ 0xBF) && utf8Cont c2 && validUtf8 r
      | _ => false
    else if (0xE1 ≤ b && b ≤ 0xEC) || b == 0xEE || b == 0xEF then
      match rest with
      | c1 :: c2 :: r => utf8Cont c1 && utf8Cont c2 && validUtf8 r
      | _ => false
    else if b == 0xED then
      match rest with
      | c1 :: c2 :: r => (0x80 ≤ c1 && c1 ≤ 0x9F) && utf8Cont c2 && validUtf8 r
      | _ => false
    else if b == 0xF0 then
      match rest with
      | c1 :: c2 :: c3 :: r =>
        (0x90 ≤ c1 && c1 ≤ 0xBF) && utf8Cont c2 && utf8Cont c3 && validUtf8 r
      | _ => false
    else if 0xF1 ≤ b && b ≤ 0xF3 then
      match rest with
      | c1 :: c2 :: c3 :: r => utf8Cont c1 && utf8Cont c2 && utf8Cont c3 && validUtf8 r
      | _ => false
    else if b == 0xF4 then
      match rest with
      | c1 :: c2 :: c3 :: r =>
        (0x80 ≤ c1 && c1 ≤ 0x8F) && utf8Cont c2 && utf8Cont c3 && validUtf8 r
      | _ => false
    else false

-- WAL records and errors -----------------------------------------------------

/-- Operation tag of Put records (OP_PUT in wal.rs). -/
def OP_PUT : Nat := 0x01

/-- Operation tag of Delete records (OP_DELETE in wal.rs). -/
def OP_DELETE : Nat := 0x02

/-- A single logical entry stored in the WAL (WalRecord in wal.rs).  Keys are
the UTF-8 bytes of the Rust String; values are raw bytes. -/
inductive WalRecord where
  | put (key : List Nat) (value : List Nat)
  | delete (key : List Nat)
deriving DecidableEq

/-- Errors of the WAL layer (WalError in wal.rs).  ioErr stands for the Io
variant; during recovery it arises from a short read mid-record. -/
inductive WalError where
  | ioErr
  | checksumMismatch (expected actual : Nat)
  | unknownOperation (b : Nat)
  | invalidKey
deriving DecidableEq

/-- The op tag of a record, as destructured at the top of
WriteAheadLog::append. -/
def WalRecord.op : WalRecord → Nat
  | .put _ _ => OP_PUT
  | .delete _ => OP_DELETE

/-- The key bytes of a record. -/
def WalRecord.key : WalRecord → List Nat
  | .put k _ => k
  | .delete k => k

/-- The value bytes of a record (empty for Delete). -/
def WalRecord.value : WalRecord → List Nat
  | .put _ v => v
  | .delete _ => []

/-- The byte sequence the CRC32 covers: op, key_len (BE u64), value_len
(BE u64), key bytes, value bytes. -/
def crcInput (op keyLen valueLen : Nat) (key value : List Nat) : List Nat :=
  op :: (u64be keyLen ++ u64be valueLen ++ key ++ value)

/-- The checksum WriteAheadLog::append stores for a record. -/
def recordChecksum (r : WalRecord) : Nat :=
  crc32 (crcInput r.op r.key.length r.value.length r.key r.value)

/-- The bytes WriteAheadLog::append writes for one record: op, CRC32 (BE u32),
key_len (BE u64), value_len (BE u64), key bytes, value bytes. -/
def encodeRecord (r : WalRecord) : List Nat :=
  r.op :: (u32be (recordChecksum r) ++ u64be r.key.length ++
    u64be r.value.length ++ r.key ++ r.value)

/-- The byte content of a WAL file holding the given records in order. -/
def encodeAll : List WalRecord → List Nat
  | [] => []
  | r :: rs => encodeRecord r ++ encodeAll rs

-- Recovery -------------------------------------------------------------------

/-- Read exactly n bytes from the stream; none models the short read that the
fixed-width reads and read_exact report as UnexpectedEof. -/
def takeExact (n : Nat) (s : List Nat) : Option (List Nat × List Nat) :=
  if n ≤ s.length then some (s.take n, s.drop n) else none

/-- One iteration of the loop of WriteAheadLog::recover, after the op byte was
read: validate the op tag, read checksum, key_len and value_len, read key and
value bytes, recompute and compare the CRC32, validate the key's UTF-8.
Returns the decoded record and the unconsumed rest of the stream. -/
def parseOne (op : Nat) (rest : List Nat) : Except WalError (WalRecord × List Nat) :=
  if op ≠ OP_PUT ∧ op ≠ OP_DELETE then .error (.unknownOperation op)
  else
    match takeExact 4 rest with
    | none => .error .ioErr
    | some (csb, r1) =>
      match takeExact 8 r1 with
      | none => .error .ioErr
      | some (klb, r2) =>
        match takeExact 8 r2 with
        | none => .error .ioErr
        | some (vlb, r3) =>
          let keyLen := beToNat klb
          let valueLen := beToNat vlb
          match takeExact keyLen r3 with
          | none => .error .ioErr
          | some (keyBytes, r4) =>
            match takeExact valueLen r4 with
            | none => .error .ioErr
            | some (value, r5) =>
              let stored := beToNat csb
              let computed := crc32 (crcInput op keyLen valueLen keyBytes value)
              if computed ≠ stored then .error (.checksumMismatch stored computed)
              else if validUtf8 keyBytes then
                .ok (if op = OP_PUT then .put keyBytes value else .delete keyBytes, r5)
              else .error .invalidKey

/-- Fuel-indexed recovery loop; the fuel bounds the number of records and
recover supplies the stream length, which always suffices. -/
def recoverAux : Nat → List Nat → Except WalError (List WalRecord)
  | _, [] => .ok []
  | 0, _ :: _ => .error .ioErr
  | fuel + 1, op :: rest =>
    match parseOne op rest with
    | .error e => .error e
    | .ok (r, s') =>
      match recoverAux fuel s' with
      | .error e => .error e
      | .ok rs => .ok (r :: rs)

/-- WriteAheadLog::recover on the byte content of an existing WAL file: reads
records until clean end of input (end of input where an op byte would start),
failing on the first malformed record. -/
def recover (s : List Nat) : Except WalError (List WalRecord) :=
  recoverAux s.length s

/-- WriteAheadLog::recover at the file level: a missing file (none) yields an
empty record sequence, not an error. -/
def recoverFile : Option (List Nat) → Except WalError (List WalRecord)
  | none => .ok []
  | some s => recover s

-- Engine ---------------------------------------------------------------------

/-- The memtable of engine.rs (a BTreeMap from String to Vec of bytes),
modelled extensionally as the key-to-value mapping it holds. -/
def Mem : Type := List Nat → Option (List Nat)

/-- The fresh empty map recovery folds into. -/
def memEmpty : Mem := fun _ => none

/-- BTreeMap::insert (set or overwrite). -/
def memInsert (k v : List Nat) (m : Mem) : Mem :=
  fun k' => if k' = k then some v else m k'

/-- BTreeMap::remove. -/
def memRemove (k : List Nat) (m : Mem) : Mem :=
  fun k' => if k' = k then none else m k'

/-- One step of the replay fold in Engine::open. -/
def applyRecord (m : Mem) : WalRecord → Mem
  | .put k v => memInsert k v m
  | .delete k => memRemove k m

/-- The replay fold of Engine::open over a recovered record sequence. -/
def foldRecords (rs : List WalRecord) (m : Mem) : Mem :=
  rs.foldl applyRecord m

/-- Errors of the engine layer (EngineError in engine.rs); wal wraps a
WalError via the from-conversion, lockPoisoned models a poisoned lock. -/
inductive EngineError where
  | wal (e : WalError)
  | lockPoisoned

/-- Engine state: the memtable plus the byte content of data_dir/wal.log. -/
structure EngineState where
  memtable : Mem
  walFile : List Nat

/-- Engine::open over the current content of data_dir/wal.log (none when the
file does not exist yet): recover the records, fold them into a fresh empty
map, keep the file content for further appends (append mode never truncates). -/
def engineOpen (file : Option (List Nat)) : Except EngineError EngineState :=
  match recoverFile file with
  | .error e => .error (.wal e)
  | .ok records =>
    .ok { memtable := foldRecords records memEmpty
          walFile := match file with | none => [] | some s => s }

/-- Engine::put.  appendResult is the outcome of the inner
WriteAheadLog::append call (an I/O oracle): on success the encoded Put record
has been written to the WAL file and only then is the memtable updated; on
failure the WAL error is returned wrapped and the state is left unchanged. -/
def EngineState.put (e : EngineState) (k v : List Nat)
    (appendResult : Except WalError Unit) : Except EngineError Unit × EngineState :=
  match appendResult with
  | .error w => (.error (.wal w), e)
  | .ok _ =>
    (.ok (), { memtable := memInsert k v e.memtable
               walFile := e.walFile ++ encodeRecord (.put k v) })

/-- Engine::delete: appends a Delete record, then removes the key, returning
whether it was present; on append failure the error is returned wrapped and
the state is left unchanged. -/
def EngineState.delete (e : EngineState) (k : List Nat)
    (appendResult : Except WalError Unit) : Except EngineError Bool × EngineState :=
  match appendResult with
  | .error w => (.error (.wal w), e)
  | .ok _ =>
    (.ok (e.memtable k).isSome,
      { memtable := memRemove k e.memtable
        walFile := e.walFile ++ encodeRecord (.delete k) })

/-- Engine::get: read-only lookup in the memtable. -/
def EngineState.get (e : EngineState) (k : List Nat) : Option (List Nat) :=
  e.memtable k

-- Sequences of successful engine calls ---------------------------------------

/-- A successful engine mutation: a put or delete call whose WAL append
succeeded. -/
inductive EngOp where
  | putOp (k v : List Nat)
  | delOp (k : List Nat)

/-- Apply one successful mutation to the engine state. -/
def applyOp (e : EngineState) : EngOp → EngineState
  | .putOp k v => (e.put k v (.ok ())).2
  | .delOp k => (e.delete k (.ok ())).2

/-- Apply a sequence of successful mutations in order. -/
def applyOps (e : EngineState) : List EngOp → EngineState
  | [] => e
  | o :: os => applyOps (applyOp e o) os

-- Well-formedness ------------------------------------------------------------

/-- Well-formedness of a record as the Rust code produces it: the key is the
UTF-8 byte sequence of a String, both lengths fit the 64-bit fields, and the
value consists of bytes. -/
def WFRecord (r : WalRecord) : Prop :=
  (∀ b ∈ r.key, b < 256) ∧ validUtf8 r.key = true ∧ r.key.length < 2 ^ 64 ∧
  (∀ b ∈ r.value, b < 256) ∧ r.value.length < 2 ^ 64

/-- Well-formedness of a mutation's arguments. -/
def WFOp : EngOp → Prop
  | .putOp k v => WFRecord (.put k v)
  | .delOp k => WFRecord (.delete k)

instance (r : WalRecord) : Decidable (WFRecord r) := by
  unfold WFRecord; exact inferInstance

instance (o : EngOp) : Decidable (WFOp o) := by
  cases o <;> · unfold WFOp; exact inferInstance

-- Big-endian encoding lemmas -------------------------------------------------

lemma natToBeBytes_length (w n : Nat) : (natToBeBytes w n).length = w := by
  induction w generalizing n with
  | zero => rfl
  | succ w ih => simp [natToBeBytes, ih]

lemma natToBeBytes_lt (w n : Nat) : ∀ b ∈ natToBeBytes w n, b < 256 := by
  induction w generalizing n with
  | zero => simp [natToBeBytes]
  | succ w ih =>
    intro b hb
    simp only [natToBeBytes, List.mem_append, List.mem_singleton] at hb
    rcases hb with h | h
    · exact ih _ _ h
    · omega

lemma beToNat_append_single (l : List Nat) (x : Nat) :
    beToNat (l ++ [x]) = beToNat l * 256 + x := by
  simp [beToNat, List.foldl_append]

lemma beToNat_natToBeBytes (w n : Nat) : beToNat (natToBeBytes w n) = n % 256 ^ w := by
  induction w generalizing n with
  | zero => simp [natToBeBytes, beToNat, Nat.mod_one]
  | succ w ih =>
    rw [natToBeBytes, beToNat_append_single, ih]
    have h256 : (256 : Nat) ^ (w + 1) = 256 * 256 ^ w := by ring
    rw [h256, Nat.mod_mul]
    ring

lemma beToNat_u64be {n : Nat} (h : n < 2 ^ 64) : beToNat (u64be n) = n := by
  have h8 : (256 : Nat) ^ 8 = 2 ^ 64 := by norm_num
  rw [u64be, beToNat_natToBeBytes, h8, Nat.mod_eq_of_lt h]

lemma beToNat_u32be {n : Nat} (h : n < 2 ^ 32) : beToNat (u32be n) = n := by
  have h4 : (256 : Nat) ^ 4 = 2 ^ 32 := by norm_num
  rw [u32be, beToNat_natToBeBytes, h4, Nat.mod_eq_of_lt h]

lemma u64be_length (n : Nat) : (u64be n).length = 8 := natToBeBytes_length 8 n

lemma u32be_length (n : Nat) : (u32be n).length = 4 := natToBeBytes_length 4 n

lemma u64be_lt (n : Nat) : ∀ b ∈ u64be n, b < 256 := natToBeBytes_lt 8 n

lemma u32be_lt (n : Nat) : ∀ b ∈ u32be n, b < 256 := natToBeBytes_lt 4 n

-- CRC32 lemmas ---------------------------------------------------------------

lemma crcPoly_lt : crcPoly < 2 ^ 32 := by norm_num [crcPoly]

lemma xor_crcPoly_high {a : Nat} (h : a < 2 ^ 31) : 2 ^ 31 ≤ a ^^^ crcPoly := by
  by_contra hlt
  push_neg at hlt
  have h1 : (a ^^^ crcPoly).testBit 31 = false := Nat.testBit_lt_two_pow hlt
  have h2 : a.testBit 31 = false := Nat.testBit_lt_two_pow h
  have h3 : crcPoly.testBit 31 = true := by decide
  rw [Nat.testBit_xor, h2, h3] at h1
  simp at h1

/-- Explicit inverse of crcRound on 32-bit states. -/
def crcRoundInv (d : Nat) : Nat :=
  if 2 ^ 31 ≤ d then 2 * (d ^^^ crcPoly) + 1 else 2 * d

lemma crcRound_lt {c : Nat} (h : c < 2 ^ 32) : crcRound c < 2 ^ 32 := by
  unfold crcRound
  split
  · exact Nat.xor_lt_two_pow (by omega) crcPoly_lt
  · omega

lemma crcRoundInv_crcRound {c : Nat} (h : c < 2 ^ 32) : crcRoundInv (crcRound c) = c := by
  unfold crcRound crcRoundInv
  have hdiv : c / 2 < 2 ^ 31 := by omega
  rcases Nat.mod_two_eq_zero_or_one c with h2 | h2
  · rw [if_neg (by omega : ¬ c % 2 = 1), if_neg (by omega : ¬ 2 ^ 31 ≤ c / 2)]
    omega
  · rw [if_pos h2, if_pos (xor_crcPoly_high hdiv), Nat.xor_cancel_right]
    omega

lemma crcRound_injOn {c c' : Nat} (h : c < 2 ^ 32) (h' : c' < 2 ^ 32)
    (he : crcRound c = crcRound c') : c = c' := by
  rw [← crcRoundInv_crcRound h, ← crcRoundInv_crcRound h', he]

lemma crcRounds_lt {n c : Nat} (h : c < 2 ^ 32) : crcRounds n c < 2 ^ 32 := by
  induction n generalizing c with
  | zero => exact h
  | succ n ih => exact ih (crcRound_lt h)

lemma crcRounds_injOn {n c c' : Nat} (h : c < 2 ^ 32) (h' : c' < 2 ^ 32)
    (he : crcRounds n c = crcRounds n c') : c = c' := by
  induction n generalizing c c' with
  | zero => exact he
  | succ n ih =>
    exact crcRound_injOn h h' (ih (crcRound_lt h) (crcRound_lt h') he)

lemma crcStep_lt {c b : Nat} (hc : c < 2 ^ 32) (hb : b < 2 ^ 32) : crcStep c b < 2 ^ 32 :=
  crcRounds_lt (Nat.xor_lt_two_pow hc hb)

lemma crcStep_injOn_left {c c' b : Nat} (hc : c < 2 ^ 32) (hc' : c' < 2 ^ 32)
    (hb : b < 2 ^ 32) (he : crcStep c b = crcStep c' b) : c = c' := by
  have h1 := crcRounds_injOn (Nat.xor_lt_two_pow hc hb) (Nat.xor_lt_two_pow hc' hb) he
  have h3 : (c ^^^ b) ^^^ b = (c' ^^^ b) ^^^ b := by rw [h1]
  rwa [Nat.xor_cancel_right, Nat.xor_cancel_right] at h3

lemma crcStep_ne_byte {c b b' : Nat} (hc : c < 2 ^ 32) (hb : b < 2 ^ 32) (hb' : b' < 2 ^ 32)
    (hne : b ≠ b') : crcStep c b ≠ crcStep c b' := by
  intro he
  have h1 := crcRounds_injOn (Nat.xor_lt_two_pow hc hb) (Nat.xor_lt_two_pow hc hb') he
  have h3 : c ^^^ (c ^^^ b) = c ^^^ (c ^^^ b') := by rw [h1]
  rw [Nat.xor_cancel_left, Nat.xor_cancel_left] at h3
  exact hne h3

lemma foldl_crcStep_lt {l : List Nat} (hl : ∀ b ∈ l, b < 2 ^ 32) {c : Nat}
    (hc : c < 2 ^ 32) : l.foldl crcStep c < 2 ^ 32 := by
  induction l generalizing c with
  | nil => exact hc
  | cons b l ih =>
    simp only [List.foldl_cons]
    exact ih (fun x hx => hl x (List.mem_cons_of_mem _ hx))
      (crcStep_lt hc (hl b (List.mem_cons_self b l)))

lemma foldl_crcStep_injOn {l : List Nat} (hl : ∀ b ∈ l, b < 2 ^ 32) :
    ∀ {c c' : Nat}, c < 2 ^ 32 → c' < 2 ^ 32 →
      l.foldl crcStep c = l.foldl crcStep c' → c = c' := by
  induction l with
  | nil => intro c c' _ _ he; exact he
  | cons b l ih =>
    intro c c' hc hc' he
    simp only [List.foldl_cons] at he
    have hb := hl b (List.mem_cons_self b l)
    have h1 := ih (fun x hx => hl x (List.mem_cons_of_mem _ hx))
      (crcStep_lt hc hb) (crcStep_lt hc' hb) he
    exact crcStep_injOn_left hc hc' hb h1

lemma crc32_lt {l : List Nat} (hl : ∀ b ∈ l, b < 256) : crc32 l < 2 ^ 32 := by
  unfold crc32
  exact Nat.xor_lt_two_pow
    (foldl_crcStep_lt (fun b hb => by have := hl b hb; omega) (by norm_num)) (by norm_num)

/-- Changing one byte of the checksummed stream always changes the CRC-32. -/
lemma crc32_single_byte_ne {p s : List Nat} {b b' : Nat}
    (hp : ∀ x ∈ p, x < 256) (hb : b < 256) (hb' : b' < 256) (hs : ∀ x ∈ s, x < 256)
    (hne : b ≠ b') : crc32 (p ++ b :: s) ≠ crc32 (p ++ b' :: s) := by
  intro he
  unfold crc32 at he
  have hfold : (p ++ b :: s).foldl crcStep 0xFFFFFFFF
      = (p ++ b' :: s).foldl crcStep 0xFFFFFFFF := by
    have h3 := congrArg (· ^^^ 0xFFFFFFFF) he
    simpa [Nat.xor_cancel_right] using h3
  simp only [List.foldl_append, List.foldl_cons] at hfold
  have hc : p.foldl crcStep 0xFFFFFFFF < 2 ^ 32 :=
    foldl_crcStep_lt (fun x hx => by have := hp x hx; omega) (by norm_num)
  have hs32 : ∀ x ∈ s, x < 2 ^ 32 := fun x hx => by have := hs x hx; omega
  have heq := foldl_crcStep_injOn hs32
    (crcStep_lt hc (by omega)) (crcStep_lt hc (by omega)) hfold
  exact crcStep_ne_byte hc (by omega) (by omega) hne heq

-- takeExact lemmas ------------------------------------------------------------

lemma takeExact_eq_some {n : Nat} {s a b : List Nat} (h : takeExact n s = some (a, b)) :
    s = a ++ b ∧ a.length = n := by
  unfold takeExact at h
  split at h
  · next hle =>
    injection h with h
    injection h with h1 h2
    subst h1; subst h2
    exact ⟨(List.take_append_drop n s).symm, by simp [List.length_take]; omega⟩
  · exact absurd h (by simp)

lemma takeExact_of_length {a : List Nat} {n : Nat} (h : a.length = n) (b : List Nat) :
    takeExact n (a ++ b) = some (a, b) := by
  unfold takeExact
  rw [if_pos (by simp [List.length_append]; omega),
    List.take_left' h, List.drop_left' h]

lemma takeExact_none {n : Nat} {s : List Nat} (h : s.length < n) : takeExact n s = none := by
  unfold takeExact
  rw [if_neg (by omega)]

lemma takeExact_append_some {n : Nat} {s a b : List Nat} (t : List Nat)
    (h : takeExact n s = some (a, b)) : takeExact n (s ++ t) = some (a, b ++ t) := by
  obtain ⟨hs, ha⟩ := takeExact_eq_some h
  subst hs
  rw [List.append_assoc]
  exact takeExact_of_length ha _

-- parseOne lemmas -------------------------------------------------------------

lemma parseOne_append {op : Nat} {rest s' : List Nat} {r : WalRecord} (t : List Nat)
    (h : parseOne op rest = .ok (r, s')) :
    parseOne op (rest ++ t) = .ok (r, s' ++ t) := by
  unfold parseOne at h ⊢
  split at h
  · exact absurd h (by simp)
  next hop =>
  rw [if_neg hop]
  cases h4 : takeExact 4 rest with
  | none => rw [h4] at h; exact absurd h (by simp)
  | some p4 =>
  obtain ⟨csb, r1⟩ := p4
  simp only [h4] at h
  simp only [takeExact_append_some t h4]
  cases h8 : takeExact 8 r1 with
  | none => rw [h8] at h; exact absurd h (by simp)
  | some p8 =>
  obtain ⟨klb, r2⟩ := p8
  simp only [h8] at h
  simp only [takeExact_append_some t h8]
  cases h8' : takeExact 8 r2 with
  | none => rw [h8'] at h; exact absurd h (by simp)
  | some p8' =>
  obtain ⟨vlb, r3⟩ := p8'
  simp only [h8'] at h
  simp only [takeExact_append_some t h8']
  cases hk : takeExact (beToNat klb) r3 with
  | none => rw [hk] at h; exact absurd h (by simp)
  | some pk =>
  obtain ⟨keyBytes, r4⟩ := pk
  simp only [hk] at h
  simp only [takeExact_append_some t hk]
  cases hv : takeExact (beToNat vlb) r4 with
  | none => rw [hv] at h; exact absurd h (by simp)
  | some pv =>
  obtain ⟨value, r5⟩ := pv
  simp only [hv] at h
  simp only [takeExact_append_some t hv]
  split at h
  · exact absurd h (by simp)
  next hcrc =>
  rw [if_neg hcrc]
  split at h
  next hutf =>
    rw [if_pos hutf]
    injection h with h
    injection h with h1 h2
    subst h1; subst h2
    rfl
  · exact absurd h (by simp)

lemma parseOne_length {op : Nat} {rest s' : List Nat} {r : WalRecord}
    (h : parseOne op rest = .ok (r, s')) : s'.length ≤ rest.length := by
  unfold parseOne at h
  split at h
  · exact absurd h (by simp)
  cases h4 : takeExact 4 rest with
  | none => rw [h4] at h; exact absurd h (by simp)
  | some p4 =>
  obtain ⟨csb, r1⟩ := p4
  simp only [h4] at h
  obtain ⟨he4, _⟩ := takeExact_eq_some h4
  cases h8 : takeExact 8 r1 with
  | none => rw [h8] at h; exact absurd h (by simp)
  | some p8 =>
  obtain ⟨klb, r2⟩ := p8
  simp only [h8] at h
  obtain ⟨he8, _⟩ := takeExact_eq_some h8
  cases h8' : takeExact 8 r2 with
  | none => rw [h8'] at h; exact absurd h (by simp)
  | some p8' =>
  obtain ⟨vlb, r3⟩ := p8'
  simp only [h8'] at h
  obtain ⟨he8', _⟩ := takeExact_eq_some h8'
  cases hk : takeExact (beToNat klb) r3 with
  | none => rw [hk] at h; exact absurd h (by simp)
  | some pk =>
  obtain ⟨keyBytes, r4⟩ := pk
  simp only [hk] at h
  obtain ⟨hek, _⟩ := takeExact_eq_some hk
  cases hv : takeExact (beToNat vlb) r4 with
  | none => rw [hv] at h; exact absurd h (by simp)
  | some pv =>
  obtain ⟨value, r5⟩ := pv
  simp only [hv] at h
  obtain ⟨hev, _⟩ := takeExact_eq_some hv
  split at h
  · exact absurd h (by simp)
  split at h
  · injection h with h
    injection h with h1 h2
    subst h2
    have l1 : rest.length = csb.length + r1.length := by rw [he4]; simp
    have l2 : r1.length = klb.length + r2.length := by rw [he8]; simp
    have l3 : r2.length = vlb.length + r3.length := by rw [he8']; simp
    have l4 : r3.length = keyBytes.length + r4.length := by rw [hek]; simp
    have l5 : r4.length = value.length + r5.length := by rw [hev]; simp
    omega
  · exact absurd h (by simp)

-- recover lemmas --------------------------------------------------------------

lemma recoverAux_nil (f : Nat) : recoverAux f [] = .ok [] := by
  cases f <;> rfl

lemma recoverAux_congr : ∀ f g : Nat, ∀ s : List Nat, s.length ≤ f → s.length ≤ g →
    recoverAux f s = recoverAux g s := by
  intro f
  induction f with
  | zero =>
    intro g s hf _
    have : s = [] := List.eq_nil_of_length_eq_zero (by omega)
    subst this
    rw [recoverAux_nil, recoverAux_nil]
  | succ f ih =>
    intro g s hf hg
    match s, g with
    | [], g => rw [recoverAux_nil, recoverAux_nil]
    | op :: rest, g + 1 =>
      simp only [recoverAux]
      cases hp : parseOne op rest with
      | error e => rfl
      | ok p =>
        obtain ⟨r, s'⟩ := p
        have hl := parseOne_length hp
        simp only [List.length_cons] at hf hg
        simp only []
        rw [ih g s' (by omega) (by omega)]

lemma recover_nil : recover [] = .ok [] := rfl

lemma recover_cons (op : Nat) (rest : List Nat) :
    recover (op :: rest) =
      match parseOne op rest with
      | .error e => .error e
      | .ok (r, s') =>
        match recover s' with
        | .error e => .error e
        | .ok rs => .ok (r :: rs) := by
  show recoverAux (rest.length + 1) (op :: rest) = _
  simp only [recoverAux]
  cases hp : parseOne op rest with
  | error e => rfl
  | ok p =>
    obtain ⟨r, s'⟩ := p
    simp only []
    rw [recoverAux_congr rest.length s'.length s' (parseOne_length hp) le_rfl]
    rfl

-- Encode and recover round trip ----------------------------------------------

lemma takeExact_self (a b : List Nat) : takeExact a.length (a ++ b) = some (a, b) :=
  takeExact_of_length rfl b

lemma op_lt (r : WalRecord) : r.op < 256 := by
  cases r <;> simp [WalRecord.op, OP_PUT, OP_DELETE]

lemma op_valid (r : WalRecord) : ¬ (r.op ≠ OP_PUT ∧ r.op ≠ OP_DELETE) := by
  cases r <;> simp [WalRecord.op]

lemma crcInput_lt {op kl vl : Nat} {key value : List Nat} (hop : op < 256)
    (hkey : ∀ b ∈ key, b < 256) (hvalue : ∀ b ∈ value, b < 256) :
    ∀ b ∈ crcInput op kl vl key value, b < 256 := by
  intro b hb
  simp only [crcInput, List.mem_cons, List.mem_append] at hb
  rcases hb with h | (((h | h) | h) | h)
  · omega
  · exact u64be_lt _ _ h
  · exact u64be_lt _ _ h
  · exact hkey _ h
  · exact hvalue _ h

lemma recordChecksum_lt {r : WalRecord} (h : WFRecord r) : recordChecksum r < 2 ^ 32 := by
  obtain ⟨hk256, _, _, hv256, _⟩ := h
  exact crc32_lt (crcInput_lt (op_lt r) hk256 hv256)

lemma parseOne_encode {r : WalRecord} (h : WFRecord r) (t : List Nat) :
    parseOne r.op (u32be (recordChecksum r) ++ (u64be r.key.length ++
      (u64be r.value.length ++ (r.key ++ (r.value ++ t))))) = .ok (r, t) := by
  obtain ⟨hk256, hutf, hklen, hv256, hvlen⟩ := h
  unfold parseOne
  rw [if_neg (op_valid r)]
  simp only [takeExact_of_length (u32be_length (recordChecksum r)),
    takeExact_of_length (u64be_length r.key.length),
    takeExact_of_length (u64be_length r.value.length),
    beToNat_u64be hklen, beToNat_u64be hvlen, takeExact_self]
  rw [if_neg (by
    rw [beToNat_u32be (recordChecksum_lt ⟨hk256, hutf, hklen, hv256, hvlen⟩)]
    simp [recordChecksum])]
  rw [if_pos hutf]
  cases r with
  | put k v => simp [WalRecord.op, WalRecord.key, WalRecord.value, OP_PUT]
  | delete k => simp [WalRecord.op, WalRecord.key, WalRecord.value, OP_PUT, OP_DELETE]

lemma encodeRecord_append (r : WalRecord) (t : List Nat) :
    encodeRecord r ++ t = r.op :: (u32be (recordChecksum r) ++ (u64be r.key.length ++
      (u64be r.value.length ++ (r.key ++ (r.value ++ t))))) := by
  simp [encodeRecord, List.append_assoc]

lemma recover_encode_cons {r : WalRecord} (h : WFRecord r) (t : List Nat) :
    recover (encodeRecord r ++ t) =
      match recover t with
      | .error e => .error e
      | .ok rs => .ok (r :: rs) := by
  rw [encodeRecord_append, recover_cons, parseOne_encode h]

lemma recover_encodeAll_append {rs : List WalRecord} (h : ∀ r ∈ rs, WFRecord r)
    (t : List Nat) :
    recover (encodeAll rs ++ t) =
      match recover t with
      | .error e => .error e
      | .ok l => .ok (rs ++ l) := by
  induction rs with
  | nil =>
    simp only [encodeAll, List.nil_append]
    cases ht : recover t <;> simp
  | cons r rs ih =>
    rw [encodeAll, List.append_assoc, recover_encode_cons (h r (List.mem_cons_self r rs)),
      ih (fun x hx => h x (List.mem_cons_of_mem _ hx))]
    cases ht : recover t <;> simp

lemma recover_encodeAll {rs : List WalRecord} (h : ∀ r ∈ rs, WFRecord r) :
    recover (encodeAll rs) = .ok rs := by
  have h1 := recover_encodeAll_append h []
  simpa [recover_nil] using h1

lemma recover_snoc : ∀ n : Nat, ∀ s : List Nat, s.length ≤ n → ∀ rs : List WalRecord,
    ∀ r : WalRecord, recover s = .ok rs → WFRecord r →
    recover (s ++ encodeRecord r) = .ok (rs ++ [r]) := by
  intro n
  induction n with
  | zero =>
    intro s hs rs r hrec hwf
    have hnil : s = [] := List.eq_nil_of_length_eq_zero (by omega)
    subst hnil
    rw [recover_nil] at hrec
    injection hrec with hrec
    subst hrec
    have h1 := recover_encode_cons hwf []
    simp only [recover_nil, List.append_nil] at h1
    simpa using h1
  | succ n ih =>
    intro s hs rs r hrec hwf
    match s with
    | [] =>
      rw [recover_nil] at hrec
      injection hrec with hrec
      subst hrec
      have h1 := recover_encode_cons hwf []
      simp only [recover_nil, List.append_nil] at h1
      simpa using h1
    | op :: rest =>
      rw [recover_cons] at hrec
      cases hp : parseOne op rest with
      | error e => rw [hp] at hrec; exact absurd hrec (by simp)
      | ok p =>
        obtain ⟨r0, s'⟩ := p
        simp only [hp] at hrec
        cases hr2 : recover s' with
        | error e => rw [hr2] at hrec; exact absurd hrec (by simp)
        | ok rs' =>
          simp only [hr2] at hrec
          injection hrec with hrec
          subst hrec
          have hl := parseOne_length hp
          simp only [List.length_cons] at hs
          have hstep := ih s' (by omega) rs' r hr2 hwf
          rw [List.cons_append, recover_cons, parseOne_append _ hp]
          simp only []
          rw [hstep]
          simp

-- Engine invariant ------------------------------------------------------------

lemma foldRecords_snoc (rs : List WalRecord) (r : WalRecord) (m : Mem) :
    foldRecords (rs ++ [r]) m = applyRecord (foldRecords rs m) r := by
  simp [foldRecords, List.foldl_append]

/-- The engine invariant: the WAL file recovers cleanly and replaying it into
a fresh empty map reproduces the memtable exactly. -/
def EngineInv (e : EngineState) : Prop :=
  ∃ rs, recover e.walFile = .ok rs ∧ foldRecords rs memEmpty = e.memtable

lemma engineOpen_inv {file : Option (List Nat)} {e : EngineState}
    (h : engineOpen file = .ok e) : EngineInv e := by
  unfold engineOpen at h
  cases hr : recoverFile file with
  | error err => rw [hr] at h; exact absurd h (by simp)
  | ok records =>
    simp only [hr] at h
    injection h with h
    subst h
    refine ⟨records, ?_, rfl⟩
    cases file with
    | none =>
      simp only [recoverFile] at hr
      injection hr with hr
      subst hr
      exact recover_nil
    | some s => exact hr

lemma applyOp_inv {e : EngineState} {o : EngOp} (hinv : EngineInv e) (hwf : WFOp o) :
    EngineInv (applyOp e o) := by
  obtain ⟨rs, hrec, hfold⟩ := hinv
  cases o with
  | putOp k v =>
    refine ⟨rs ++ [.put k v], ?_, ?_⟩
    · show recover (e.walFile ++ encodeRecord (.put k v)) = _
      exact recover_snoc e.walFile.length e.walFile le_rfl rs _ hrec hwf
    · show _ = memInsert k v e.memtable
      rw [foldRecords_snoc, hfold]
      rfl
  | delOp k =>
    refine ⟨rs ++ [.delete k], ?_, ?_⟩
    · show recover (e.walFile ++ encodeRecord (.delete k)) = _
      exact recover_snoc e.walFile.length e.walFile le_rfl rs _ hrec hwf
    · show _ = memRemove k e.memtable
      rw [foldRecords_snoc, hfold]
      rfl

lemma applyOps_inv : ∀ ops : List EngOp, ∀ e : EngineState, EngineInv e →
    (∀ o ∈ ops, WFOp o) → EngineInv (applyOps e ops) := by
  intro ops
  induction ops with
  | nil => intro e h _; exact h
  | cons o os ih =>
    intro e h hwf
    exact ih _ (applyOp_inv h (hwf o (List.mem_cons_self o os)))
      (fun x hx => hwf x (List.mem_cons_of_mem _ hx))

-- Malformed head records -------------------------------------------------------

lemma recover_unknown_op {op : Nat} (rest : List Nat) (h1 : op ≠ OP_PUT)
    (h2 : op ≠ OP_DELETE) :
    recover (op :: rest) = .error (.unknownOperation op) := by
  rw [recover_cons]
  unfold parseOne
  rw [if_pos ⟨h1, h2⟩]

lemma recover_short_header {op : Nat} {rest : List Nat}
    (hop : op = OP_PUT ∨ op = OP_DELETE) (hlen : rest.length < 20) :
    recover (op :: rest) = .error .ioErr := by
  rw [recover_cons]
  unfold parseOne
  rw [if_neg (by rcases hop with h | h <;> simp [h])]
  by_cases h4 : rest.length < 4
  · rw [takeExact_none h4]
  · push_neg at h4
    have e4 : takeExact 4 rest = some (rest.take 4, rest.drop 4) := by
      unfold takeExact; rw [if_pos h4]
    simp only [e4]
    by_cases h8 : (rest.drop 4).length < 8
    · rw [takeExact_none h8]
    · push_neg at h8
      have e8 : takeExact 8 (rest.drop 4) =
          some ((rest.drop 4).take 8, (rest.drop 4).drop 8) := by
        unfold takeExact; rw [if_pos h8]
      simp only [e8]
      have h8' : ((rest.drop 4).drop 8).length < 8 := by
        simp only [List.length_drop]; omega
      rw [takeExact_none h8']

lemma recover_short_payload {op : Nat} {csb klb vlb payload : List Nat}
    (hop : op = OP_PUT ∨ op = OP_DELETE) (h4 : csb.length = 4) (h8 : klb.length = 8)
    (h8' : vlb.length = 8) (hshort : payload.length < beToNat klb + beToNat vlb) :
    recover (op :: (csb ++ (klb ++ (vlb ++ payload)))) = .error .ioErr := by
  rw [recover_cons]
  unfold parseOne
  rw [if_neg (by rcases hop with h | h <;> simp [h])]
  simp only [takeExact_of_length h4, takeExact_of_length h8, takeExact_of_length h8']
  by_cases hk : payload.length < beToNat klb
  · rw [takeExact_none hk]
  · push_neg at hk
    have ek : takeExact (beToNat klb) payload =
        some (payload.take (beToNat klb), payload.drop (beToNat klb)) := by
      unfold takeExact; rw [if_pos hk]
    simp only [ek]
    have hv : (payload.drop (beToNat klb)).length < beToNat vlb := by
      simp only [List.length_drop]; omega
    rw [takeExact_none hv]

-- Splitting a byte stream at a corrupted position ------------------------------

lemma append_eq_append_cons {A Y pre suf : List Nat} {b : Nat}
    (h : A ++ Y = pre ++ b :: suf) (hl : A.length ≤ pre.length) :
    ∃ p, pre = A ++ p ∧ Y = p ++ b :: suf := by
  refine ⟨pre.drop A.length, ?_, ?_⟩
  · have h1 := congrArg (List.take A.length) h
    rw [List.take_left, List.take_append_of_le_length hl] at h1
    conv_lhs => rw [← List.take_append_drop A.length pre]
    rw [← h1]
  · have h2 := congrArg (List.drop A.length) h
    rw [List.drop_left, List.drop_append_of_le_length hl] at h2
    exact h2

-- Claims ----------------------------------------------------------------------

/-- C1: for every sequence of successful put and delete calls performed on an
engine opened over a data directory, recovering the resulting WAL file and
folding its records into a fresh empty map (as Engine::open does) yields a map
equal to the engine's current memtable; in particular every mutation
acknowledged before a crash is reflected after reopening the same directory. -/
theorem c1_durability (file : Option (List Nat)) (e0 : EngineState) (ops : List EngOp)
    (hopen : engineOpen file = .ok e0) (hwf : ∀ o ∈ ops, WFOp o) :
    ∃ rs, recover (applyOps e0 ops).walFile = .ok rs ∧
      foldRecords rs memEmpty = (applyOps e0 ops).memtable :=
  applyOps_inv ops e0 (engineOpen_inv hopen) hwf

/-- Witness for C1: a fresh engine with one put and one delete applied. -/
theorem c1_durability_witness :
    ∃ rs, recover (applyOps { memtable := foldRecords [] memEmpty, walFile := [] }
        [.putOp [104] [105], .delOp [104]]).walFile = .ok rs ∧
      foldRecords rs memEmpty =
        (applyOps { memtable := foldRecords [] memEmpty, walFile := [] }
          [.putOp [104] [105], .delOp [104]]).memtable :=
  c1_durability none _ [.putOp [104] [105], .delOp [104]] rfl (by decide)

/-- C2: encoding any sequence of well-formed records with append's byte layout
(op tag, big-endian CRC32 over op, lengths and payload, big-endian 8-byte
lengths, key bytes, value bytes) and running recover on the resulting stream
succeeds and returns the same records in the same order. -/
theorem c2_wal_roundtrip (rs : List WalRecord) (h : ∀ r ∈ rs, WFRecord r) :
    recover (encodeAll rs) = .ok rs :=
  recover_encodeAll h

/-- Witness for C2: a Put with a two-byte key, a Delete, and an empty-key,
empty-value Put round-trip through encoding and recovery. -/
theorem c2_wal_roundtrip_witness :
    recover (encodeAll [.put [104, 105] [1, 2, 3], .delete [104, 105], .put [] []]) =
      .ok [.put [104, 105] [1, 2, 3], .delete [104, 105], .put [] []] :=
  c2_wal_roundtrip _ (by decide)

/-- C3: the replay fold is order-preserving and last-writer-wins per key: Put
sets or overwrites, Delete removes (no-op when absent); concretely the
sequence Put, Put, Delete, Put leaves the final value, and Put then Delete
leaves the key absent. -/
theorem c3_replay_fold (k v1 v2 v3 : List Nat) (m : Mem) (kk vv k' : List Nat) :
    foldRecords [.put k v1, .put k v2, .delete k, .put k v3] memEmpty k = some v3 ∧
    foldRecords [.put k v1, .delete k] memEmpty k = none ∧
    applyRecord m (.put kk vv) k' = (if k' = kk then some vv else m k') ∧
    applyRecord m (.delete kk) k' = (if k' = kk then none else m k') := by
  refine ⟨?_, ?_, rfl, rfl⟩
  · simp [foldRecords, applyRecord, memInsert, memRemove]
  · simp [foldRecords, applyRecord, memInsert, memRemove]

/-- C4: when the WAL append inside put or delete fails, the memtable (indeed
the entire engine state) is left unchanged and the WAL error is returned
wrapped as EngineError.wal, preserving its kind. -/
theorem c4_append_failure (e : EngineState) (k v : List Nat) (w : WalError) :
    e.put k v (.error w) = (.error (.wal w), e) ∧
    e.delete k (.error w) = (.error (.wal w), e) :=
  ⟨rfl, rfl⟩

/-- C5: recovery halts with an error at the first malformed record and returns
no records: an op byte that is neither 0x01 nor 0x02 yields an
unknown-operation error carrying that byte, and input ending mid-record
(short header or fewer payload bytes than the declared lengths) yields an I/O
error. -/
theorem c5_recover_halts (rs : List WalRecord) (hwf : ∀ r ∈ rs, WFRecord r) (op : Nat) :
    (∀ rest : List Nat, op ≠ OP_PUT → op ≠ OP_DELETE →
      recover (encodeAll rs ++ op :: rest) = .error (.unknownOperation op)) ∧
    (∀ rest : List Nat, (op = OP_PUT ∨ op = OP_DELETE) → rest.length < 20 →
      recover (encodeAll rs ++ op :: rest) = .error .ioErr) ∧
    (∀ csb klb vlb payload : List Nat, (op = OP_PUT ∨ op = OP_DELETE) →
      csb.length = 4 → klb.length = 8 → vlb.length = 8 →
      payload.length < beToNat klb + beToNat vlb →
      recover (encodeAll rs ++ op :: (csb ++ (klb ++ (vlb ++ payload)))) =
        .error .ioErr) := by
  refine ⟨?_, ?_, ?_⟩
  · intro rest h1 h2
    rw [recover_encodeAll_append hwf, recover_unknown_op rest h1 h2]
  · intro rest hop hlen
    rw [recover_encodeAll_append hwf, recover_short_header hop hlen]
  · intro csb klb vlb payload hop h4 h8 h8' hshort
    rw [recover_encodeAll_append hwf, recover_short_payload hop h4 h8 h8' hshort]

/-- Witness for C5: an unknown op byte after a valid record, and a truncated
header after a valid record. -/
theorem c5_recover_halts_witness :
    recover (encodeAll [.put [104] [1]] ++ 171 :: [0, 0]) =
      .error (.unknownOperation 171) ∧
    recover (encodeAll [.put [104] [1]] ++ 1 :: [0, 0]) = .error .ioErr :=
  ⟨(c5_recover_halts [.put [104] [1]] (by decide) 171).1 [0, 0] (by decide) (by decide),
   (c5_recover_halts [.put [104] [1]] (by decide) 1).2.1 [0, 0] (by decide) (by decide)⟩

/-- C6: recovering a missing WAL file yields an empty record sequence, not an
error, and recovering a byte stream that ends exactly at a record boundary
succeeds and returns every record in file order. -/
theorem c6_clean_recovery (rs : List WalRecord) (h : ∀ r ∈ rs, WFRecord r) :
    recoverFile none = .ok [] ∧ recoverFile (some (encodeAll rs)) = .ok rs :=
  ⟨rfl, recover_encodeAll h⟩

/-- Witness for C6 at a concrete record sequence. -/
theorem c6_clean_recovery_witness :
    recoverFile none = .ok [] ∧
    recoverFile (some (encodeAll [.put [120] [9], .delete [120]])) =
      .ok [.put [120] [9], .delete [120]] :=
  c6_clean_recovery [.put [120] [9], .delete [120]] (by decide)

/-- C7: for every well-formed encoded record, changing any single byte in its
key-bytes or value-bytes region (positions 21 onward) to a different byte
value makes recovery fail with a checksum-mismatch error carrying the stored
checksum and the recomputed one, which differ; it never succeeds with the
altered key or value. -/
theorem c7_corruption (r : WalRecord) (pre suf : List Nat) (b b' : Nat)
    (hwf : WFRecord r) (hsplit : encodeRecord r = pre ++ b :: suf)
    (hpos : 21 ≤ pre.length) (hb' : b' < 256) (hne : b' ≠ b) :
    ∃ actual,
      recover (pre ++ b' :: suf) =
        .error (.checksumMismatch (recordChecksum r) actual) ∧
      actual ≠ recordChecksum r := by
  obtain ⟨hk256, hutf, hklen, hvl256, hvlen⟩ := hwf
  have henc : encodeRecord r = (r.op :: (u32be (recordChecksum r) ++
      (u64be r.key.length ++ u64be r.value.length))) ++ (r.key ++ r.value) := by
    simp [encodeRecord, List.append_assoc]
  have hAlen : (r.op :: (u32be (recordChecksum r) ++
      (u64be r.key.length ++ u64be r.value.length))).length = 21 := by
    simp [u32be_length, u64be_length]
  rw [henc] at hsplit
  obtain ⟨p, hpre, hKV⟩ := append_eq_append_cons hsplit (by omega)
  have hKV256 : ∀ x ∈ r.key ++ r.value, x < 256 := by
    intro x hx
    rcases List.mem_append.mp hx with h | h
    · exact hk256 _ h
    · exact hvl256 _ h
  have hp256 : ∀ x ∈ p, x < 256 := fun x hx =>
    hKV256 x (by rw [hKV]; exact List.mem_append_left _ hx)
  have hs256 : ∀ x ∈ suf, x < 256 := fun x hx =>
    hKV256 x (by rw [hKV]; exact List.mem_append_right _ (List.mem_cons_of_mem _ hx))
  have hb256 : b < 256 :=
    hKV256 b (by rw [hKV]; exact List.mem_append_right _ (List.mem_cons_self _ _))
  have hlenKV : p.length + (suf.length + 1) = r.key.length + r.value.length := by
    have h1 := congrArg List.length hKV
    simp only [List.length_append, List.length_cons] at h1
    omega
  have hP256 : ∀ x ∈ r.op :: ((u64be r.key.length ++ u64be r.value.length) ++ p),
      x < 256 := by
    intro x hx
    rcases List.mem_cons.mp hx with h | h
    · subst h; exact op_lt r
    · rcases List.mem_append.mp h with h | h
      · rcases List.mem_append.mp h with h | h
        · exact u64be_lt _ _ h
        · exact u64be_lt _ _ h
      · exact hp256 _ h
  have hstored : recordChecksum r =
      crc32 ((r.op :: ((u64be r.key.length ++ u64be r.value.length) ++ p)) ++ b :: suf) := by
    unfold recordChecksum
    congr 1
    simp only [crcInput, List.cons_append]
    rw [List.append_assoc (u64be r.key.length ++ u64be r.value.length) r.key r.value, hKV,
      ← List.append_assoc (u64be r.key.length ++ u64be r.value.length) p (b :: suf)]
  have hMlen : (p ++ b' :: suf).length = r.key.length + r.value.length := by
    simp only [List.length_append, List.length_cons]
    omega
  have ekey : takeExact r.key.length (p ++ b' :: suf) =
      some ((p ++ b' :: suf).take r.key.length, (p ++ b' :: suf).drop r.key.length) := by
    unfold takeExact
    rw [if_pos (by omega)]
  have evalue : takeExact r.value.length ((p ++ b' :: suf).drop r.key.length) =
      some (((p ++ b' :: suf).drop r.key.length).take r.value.length,
        ((p ++ b' :: suf).drop r.key.length).drop r.value.length) := by
    unfold takeExact
    rw [if_pos (by simp only [List.length_drop]; omega)]
  have hkv' : (p ++ b' :: suf).take r.key.length ++
      ((p ++ b' :: suf).drop r.key.length).take r.value.length = p ++ b' :: suf := by
    rw [List.take_of_length_le (show ((p ++ b' :: suf).drop r.key.length).length ≤
        r.value.length by simp only [List.length_drop]; omega),
      List.take_append_drop]
  have hcomputed : crcInput r.op r.key.length r.value.length
      ((p ++ b' :: suf).take r.key.length)
      (((p ++ b' :: suf).drop r.key.length).take r.value.length)
      = (r.op :: ((u64be r.key.length ++ u64be r.value.length) ++ p)) ++ b' :: suf := by
    simp only [crcInput, List.cons_append]
    rw [List.append_assoc (u64be r.key.length ++ u64be r.value.length)
        ((p ++ b' :: suf).take r.key.length), hkv',
      ← List.append_assoc (u64be r.key.length ++ u64be r.value.length) p (b' :: suf)]
  have hactual_ne :
      crc32 ((r.op :: ((u64be r.key.length ++ u64be r.value.length) ++ p)) ++ b' :: suf)
        ≠ recordChecksum r := by
    rw [hstored]
    exact crc32_single_byte_ne hP256 hb' hb256 hs256 hne
  refine ⟨crc32 ((r.op :: ((u64be r.key.length ++ u64be r.value.length) ++ p)) ++
    b' :: suf), ?_, hactual_ne⟩
  rw [hpre]
  have hstream : ((r.op :: (u32be (recordChecksum r) ++
      (u64be r.key.length ++ u64be r.value.length))) ++ p) ++ b' :: suf
      = r.op :: (u32be (recordChecksum r) ++ (u64be r.key.length ++
        (u64be r.value.length ++ (p ++ b' :: suf)))) := by
    simp [List.append_assoc]
  rw [hstream, recover_cons]
  unfold parseOne
  rw [if_neg (op_valid r)]
  simp only [takeExact_of_length (u32be_length (recordChecksum r)),
    takeExact_of_length (u64be_length r.key.length),
    takeExact_of_length (u64be_length r.value.length),
    beToNat_u64be hklen, beToNat_u64be hvlen]
  simp only [ekey, evalue]
  rw [beToNat_u32be (recordChecksum_lt ⟨hk256, hutf, hklen, hvl256, hvlen⟩)]
  rw [hcomputed]
  rw [if_pos hactual_ne]

set_option maxRecDepth 100000 in
/-- Witness for C7: flipping the single key byte of an encoded Put record. -/
theorem c7_corruption_witness :
    ∃ actual,
      recover ((encodeRecord (.put [97] [5])).take 21 ++ 98 :: [5]) =
        .error (.checksumMismatch (recordChecksum (.put [97] [5])) actual) ∧
      actual ≠ recordChecksum (.put [97] [5]) :=
  c7_corruption (.put [97] [5]) ((encodeRecord (.put [97] [5])).take 21) [5] 97 98
    (by decide) (by decide) (by decide) (by decide) (by decide)

/-- C8: delete returns exactly whether the key was present in the memtable
immediately before the removal, and in both cases (present or absent) the
Delete record for the key is appended to the WAL; the key is removed from the
memtable. -/
theorem c8_delete_contract (e : EngineState) (k : List Nat) :
    (e.delete k (.ok ())).1 = .ok ((e.memtable k).isSome) ∧
    (e.delete k (.ok ())).2.walFile = e.walFile ++ encodeRecord (.delete k) ∧
    (e.delete k (.ok ())).2.memtable = memRemove k e.memtable :=
  ⟨rfl, rfl, rfl⟩

/-- C9: the engine does not special-case the empty key: put with the empty key
makes get of the empty key return the stored value, delete of the empty key
follows the general contract, and a Put record with an empty key encodes,
checksums and recovers like any other record. -/
theorem c9_empty_key (e : EngineState) (v : List Nat) (hv : ∀ b ∈ v, b < 256)
    (hlen : v.length < 2 ^ 64) :
    (e.put [] v (.ok ())).2.get [] = some v ∧
    (e.delete [] (.ok ())).1 = .ok ((e.memtable []).isSome) ∧
    (e.delete [] (.ok ())).2.walFile = e.walFile ++ encodeRecord (.delete []) ∧
    recover (encodeAll [.put [] v]) = .ok [.put [] v] := by
  refine ⟨rfl, rfl, rfl, ?_⟩
  exact recover_encodeAll (by
    intro r hr
    simp only [List.mem_singleton] at hr
    subst hr
    exact ⟨by simp [WalRecord.key], rfl, by
      simp [WalRecord.key], by simpa [WalRecord.value] using hv, by
      simpa [WalRecord.value] using hlen⟩)

/-- Witness for C9 at a concrete engine state and value. -/
theorem c9_empty_key_witness :
    ({ memtable := memEmpty, walFile := [] } : EngineState).put [] [7]
        (.ok ()) |>.2.get [] = some [7] ∧
    recover (encodeAll [.put [] [7]]) = .ok [.put [] [7]] :=
  ⟨(c9_empty_key { memtable := memEmpty, walFile := [] } [7] (by decide) (by decide)).1,
   (c9_empty_key { memtable := memEmpty, walFile := [] } [7] (by decide)
      (by decide)).2.2.2⟩

/-- C10: put and delete modify the memtable only at their key: for every other
key, get returns the same value before and after the operation. -/
theorem c10_frame (e : EngineState) (k v k' : List Nat) (h : k' ≠ k) :
    (e.put k v (.ok ())).2.get k' = e.get k' ∧
    (e.delete k (.ok ())).2.get k' = e.get k' := by
  constructor <;>
    simp [EngineState.put, EngineState.delete, EngineState.get, memInsert, memRemove, h]

/-- Witness for C10 at concrete distinct keys. -/
theorem c10_frame_witness :
    (({ memtable := memEmpty, walFile := [] } : EngineState).put [97] [1]
        (.ok ())).2.get [98] =
      ({ memtable := memEmpty, walFile := [] } : EngineState).get [98] ∧
    (({ memtable := memEmpty, walFile := [] } : EngineState).delete [97]
        (.ok ())).2.get [98] =
      ({ memtable := memEmpty, walFile := [] } : EngineState).get [98] :=
  c10_frame { memtable := memEmpty, walFile := [] } [97] [1] [98] (by decide)

end LumenKV
